import Mathlib

/-!
# Formal model of the `sol-sim-ts` simulation core

A shallow embedding, in Lean 4, of the core of the `sol-sim-ts` repository:

* `src/lite-sim/simulation.ts` — leaf hashing (`hashMetadataLeaf`,
  `hashOperationLeaf`), the Merkle builder (`buildMerkleTree`) and the
  top-level `computeMerkleRoot`;
* `src/litesim/mutations.ts` — `computeMutation` / `computeMutations`;
* `src/lite-sim/simulator.ts` — `runSimulation` / `executeBatch` over an
  abstract sandbox interface (the external `litesvm` VM is a black box,
  modelled as a record of state-transition functions);
* `src/mcm-runner/proposal/parser.ts` — `parseHex` / `validateProposal`;
* `src/mcm-runner/simulation.ts` — `createMcmSimulation`.

Bytes are modelled as `List Nat` (each element a value `< 256` in well-formed
data); JavaScript `bigint` values that the code wraps through
`DataView.setBigUint64` / `Buffer.writeBigUInt64LE` are modelled as `Int`
with the 2^64 wrap made explicit.  External collaborators (base58 address
codec, RPC account fetch, PDA derivation, sha-256 discriminators, the
`litesvm` sandbox) enter as parameters.
-/

/-! ## Bytes -/

abbrev Bytes := List Nat

/-- Addresses (`Address` of `@solana/kit`, a base58 string) are modelled by
their 32 decoded bytes; the external `getAddressEncoder().encode` of
`@solana/kit` is then the identity. -/
abbrev Address := List Nat

/-- JavaScript `TypedArray.set(src, offset)`: overwrite `src.length` bytes of
`buf` starting at `offset`. -/
def setBytes (buf : Bytes) (offset : Nat) (src : Bytes) : Bytes :=
  buf.take offset ++ src ++ buf.drop (offset + src.length)

/-- The concatenation pattern used throughout `simulation.ts`: allocate a
zero buffer of the total length, then copy each part at its running
offset (`concatenated.set(part, offset); offset += part.length`). -/
def concatParts (parts : List Bytes) : Bytes :=
  let totalLength := parts.foldl (fun sum part => sum + part.length) 0
  (parts.foldl (fun acc part => (setBytes acc.1 acc.2 part, acc.2 + part.length))
    (List.replicate totalLength 0, 0)).1

/-- The 8 bytes of `value` as written by `DataView.setBigUint64(_, value, true)`
(little-endian, wrapping modulo 2^64 as `ToBigUint64` does). -/
def leBytes8 (value : Int) : Bytes :=
  let n := (value.emod (2 ^ 64)).toNat
  (List.range 8).map fun k => n / 256 ^ k % 256

/-- The 4 bytes of `value` as written by `Buffer.writeUInt32LE`. -/
def leBytes4 (value : Int) : Bytes :=
  let n := (value.emod (2 ^ 32)).toNat
  (List.range 4).map fun k => n / 256 ^ k % 256

/-! ## keccak-256 (`keccak_256` of `@noble/hashes/sha3.js`)

The original Keccak (Ethereum variant: `0x01` domain padding), rate 136
bytes, 24 rounds of Keccak-f[1600].  Lanes are `Nat` values kept `< 2^64`
by explicit masking. -/

def keccakMask64 : Nat := 2 ^ 64 - 1

def keccakRotl64 (x n : Nat) : Nat := ((x <<< n) ||| (x >>> (64 - n))) &&& keccakMask64

/-- The rotation offset of lane `(x, y)` is `(t+1)(t+2)/2 mod 64` along the
standard walk `(x, y) ← (y, (2x+3y) mod 5)` from `(1, 0)`; lane `(0, 0)`
keeps offset 0.  Pairs of (lane index `x + 5y`, offset). -/
def keccakRhoPairs : List (Nat × Nat) :=
  ((List.range 24).foldl
    (fun acc t =>
      let x := acc.1.1
      let y := acc.1.2
      ((y, (2 * x + 3 * y) % 5), (x + 5 * y, (t + 1) * (t + 2) / 2 % 64) :: acc.2))
    ((1, 0), [(0, 0)])).2

def keccakRhoOffsets : List Nat :=
  (List.range 25).map fun i =>
    ((keccakRhoPairs.find? fun p => p.1 == i).map Prod.snd).getD 0

/-- One step of the degree-8 LFSR (x^8 + x^6 + x^5 + x^4 + 1) that generates
the round-constant bits. -/
def keccakLfsrNext (r : Nat) : Nat :=
  if r &&& 0x80 ≠ 0 then ((r <<< 1) ^^^ 0x71) &&& 0xFF else (r <<< 1) &&& 0xFF

/-- The 24 round constants: for round `ir`, bit `2^j - 1` is LFSR output
bit `j + 7 ir`. -/
def keccakRoundConstants : List Nat :=
  (((List.range 24).foldl
    (fun acc _ =>
      let final := (List.range 7).foldl
        (fun st j =>
          let rc := if st.1 &&& 1 = 1 then st.2 ||| (1 <<< ((1 <<< j) - 1)) else st.2
          (keccakLfsrNext st.1, rc))
        (acc.1, 0)
      (final.1, final.2 :: acc.2))
    (1, ([] : List Nat))).2).reverse

def keccakTheta (A : List Nat) : List Nat :=
  let C := (List.range 5).map fun x =>
    A.getD x 0 ^^^ A.getD (x + 5) 0 ^^^ A.getD (x + 10) 0 ^^^ A.getD (x + 15) 0 ^^^
      A.getD (x + 20) 0
  let D := (List.range 5).map fun x =>
    C.getD ((x + 4) % 5) 0 ^^^ keccakRotl64 (C.getD ((x + 1) % 5) 0) 1
  (List.range 25).map fun i => A.getD i 0 ^^^ D.getD (i % 5) 0

def keccakRhoPi (A : List Nat) : List Nat :=
  let moved := (List.range 25).map fun i =>
    let x := i % 5
    let y := i / 5
    (y + 5 * ((2 * x + 3 * y) % 5), keccakRotl64 (A.getD i 0) (keccakRhoOffsets.getD i 0))
  (List.range 25).map fun j => ((moved.find? fun p => p.1 == j).map Prod.snd).getD 0

def keccakChi (B : List Nat) : List Nat :=
  (List.range 25).map fun i =>
    let x := i % 5
    let y := i / 5
    B.getD i 0 ^^^
      ((B.getD ((x + 1) % 5 + 5 * y) 0 ^^^ keccakMask64) &&& B.getD ((x + 2) % 5 + 5 * y) 0)

def keccakIota (rc : Nat) (A : List Nat) : List Nat :=
  (List.range 25).map fun i => if i == 0 then A.getD 0 0 ^^^ rc else A.getD i 0

def keccakF (A : List Nat) : List Nat :=
  keccakRoundConstants.foldl (fun st rc => keccakIota rc (keccakChi (keccakRhoPi (keccakTheta st)))) A

def keccakLaneAt (block : Bytes) (i : Nat) : Nat :=
  (List.range 8).foldr (fun k acc => acc * 256 + block.getD (8 * i + k) 0) 0

def keccakAbsorbBlock (st : List Nat) (block : Bytes) : List Nat :=
  keccakF ((List.range 25).map fun i =>
    if i < 17 then st.getD i 0 ^^^ keccakLaneAt block i else st.getD i 0)

def keccakPad (m : Bytes) : Bytes :=
  let padLen := 136 - m.length % 136
  if padLen == 1 then m ++ [0x81]
  else m ++ 0x01 :: (List.replicate (padLen - 2) 0 ++ [0x80])

def keccak256 (m : Bytes) : Bytes :=
  let padded := keccakPad m
  let nBlocks := padded.length / 136
  let st := ((List.range nBlocks).map fun b => (padded.drop (136 * b)).take 136).foldl
    keccakAbsorbBlock (List.replicate 25 0)
  (List.range 32).map fun i => st.getD (i / 8) 0 >>> (8 * (i % 8)) % 256

/-- UTF-8 bytes of an ASCII string (`new TextEncoder().encode`). -/
def asciiBytes (s : String) : Bytes := s.toList.map Char.toNat

/-! ## Proposal data model (`src/mcm-runner/proposal/types.ts`) -/

/-- Account meta in a Solana instruction. -/
structure AccountMeta where
  pubkey : Address
  isSigner : Bool
  isWritable : Bool
deriving DecidableEq, Repr

/-- Instruction in the proposal. -/
structure ProposalInstruction where
  programId : Address
  data : Bytes
  accounts : List AccountMeta
deriving DecidableEq, Repr

/-- Root metadata for the proposal.  `chainId`, `preOpCount`, `postOpCount`
are JavaScript `bigint`, modelled as `Int`. -/
structure RootMetadata where
  chainId : Int
  multisig : Address
  preOpCount : Int
  postOpCount : Int
  overridePreviousRoot : Bool
deriving DecidableEq, Repr

/-- MCM proposal structure. -/
structure Proposal where
  multisigId : Bytes
  validUntil : Int
  instructions : List ProposalInstruction
  rootMetadata : RootMetadata
deriving DecidableEq, Repr

/-- Result of `buildMerkleTree`: the root and one inclusion proof per leaf. -/
structure MerkleTreeResult where
  root : Bytes
  proofs : List (List Bytes)
deriving DecidableEq, Repr

/-- Proposal with computed merkle root and proofs. -/
structure ProposalWithRoot where
  proposal : Proposal
  root : Bytes
  operationProofs : List (List Bytes)
deriving DecidableEq, Repr

/-! ## Leaf hashing (`src/lite-sim/simulation.ts`) -/

def DOMAIN_SEPARATOR_METADATA : Bytes :=
  keccak256 (asciiBytes "MANY_CHAIN_MULTI_SIG_DOMAIN_SEPARATOR_METADATA_SOLANA")

def DOMAIN_SEPARATOR_OP : Bytes :=
  keccak256 (asciiBytes "MANY_CHAIN_MULTI_SIG_DOMAIN_SEPARATOR_OP_SOLANA")

/-- `padU64To32Bytes`: a zeroed 32-byte buffer with
`view.setBigUint64(24, value, true)` — the value written little-endian at
offset 24, bytes 0‥23 left zero. -/
def padU64To32Bytes (value : Int) : Bytes :=
  setBytes (List.replicate 32 0) 24 (leBytes8 value)

/-- `padBoolTo32Bytes`: a zeroed 32-byte buffer with `bytes[31] = value ? 1 : 0`. -/
def padBoolTo32Bytes (value : Bool) : Bytes :=
  setBytes (List.replicate 32 0) 31 [if value then 1 else 0]

/-- `hashMetadataLeaf`: hash of the concatenation of the metadata fields. -/
def hashMetadataLeaf (proposal : Proposal) : Bytes :=
  let multisigBytes := proposal.rootMetadata.multisig
  keccak256 (concatParts
    [DOMAIN_SEPARATOR_METADATA,
     padU64To32Bytes proposal.rootMetadata.chainId,
     multisigBytes,
     padU64To32Bytes proposal.rootMetadata.preOpCount,
     padU64To32Bytes proposal.rootMetadata.postOpCount,
     padBoolTo32Bytes proposal.rootMetadata.overridePreviousRoot])

/-- The flags byte of one serialized account: bit 1 = isSigner (0x02),
bit 0 = isWritable (0x01). -/
def accountFlags (acc : AccountMeta) : Nat :=
  (if acc.isSigner then 2 else 0) ||| (if acc.isWritable then 1 else 0)

/-- The `serializedAccounts` buffer of `hashOperationLeaf`: a zeroed buffer of
`accounts.length * 33` bytes, account `i`'s 32 pubkey bytes written at
offset `i * 33` and its flags byte at `i * 33 + 32`. -/
def serializedAccounts (accounts : List AccountMeta) : Bytes :=
  (List.range accounts.length).foldl
    (fun buf i =>
      let acc := accounts.getD i ⟨[], false, false⟩
      setBytes (setBytes buf (i * 33) acc.pubkey) (i * 33 + 32) [accountFlags acc])
    (List.replicate (accounts.length * 33) 0)

/-- `hashOperationLeaf`: hash of the concatenation of the operation fields. -/
def hashOperationLeaf (proposal : Proposal) (instruction : ProposalInstruction)
    (nonce : Int) : Bytes :=
  let multisigBytes := proposal.rootMetadata.multisig
  let programIdBytes := instruction.programId
  keccak256 (concatParts
    [DOMAIN_SEPARATOR_OP,
     padU64To32Bytes proposal.rootMetadata.chainId,
     multisigBytes,
     padU64To32Bytes nonce,
     programIdBytes,
     padU64To32Bytes (instruction.data.length : Int),
     instruction.data,
     padU64To32Bytes (instruction.accounts.length : Int),
     serializedAccounts instruction.accounts])

/-! ## Merkle builder (`buildMerkleTree` of `src/lite-sim/simulation.ts`) -/

/-- `Buffer.compare`: lexicographic byte comparison (a strict prefix is
smaller). -/
def compareBytes : Bytes → Bytes → Ordering
  | [], [] => .eq
  | [], _ :: _ => .lt
  | _ :: _, [] => .gt
  | a :: as, b :: bs => if a < b then .lt else if b < a then .gt else compareBytes as bs

/-- Hash one pair of sibling nodes: sort the two hashes by byte value
(`Buffer.compare(left, right) < 0 ? [left, right] : [right, left]`),
concatenate, keccak. -/
def hashPair (left right : Bytes) : Bytes :=
  if compareBytes left right = .lt then keccak256 (left ++ right)
  else keccak256 (right ++ left)

/-- One pass of the level-building loop
(`for (let i = 0; i < currentLevel.length; i += 2)`): hash each adjacent
pair, promote an odd node at the end unchanged. -/
def nextLevel : List Bytes → List Bytes
  | a :: b :: rest => hashPair a b :: nextLevel rest
  | l => l

/-- The `while (currentLevel.length > 1)` loop, run with explicit fuel so
that the definition computes by kernel reduction; `buildLevels` supplies
fuel `l.length`, which always suffices (each pass at least halves a level
of length ≥ 2). -/
def buildLevelsGo : Nat → List Bytes → List (List Bytes)
  | 0, l => [l]
  | fuel + 1, l => if l.length ≤ 1 then [l] else l :: buildLevelsGo fuel (nextLevel l)

/-- The full `tree` array of `buildMerkleTree`: the leaf level followed by
each successive level up to the single root node. -/
def buildLevels (l : List Bytes) : List (List Bytes) := buildLevelsGo l.length l

/-- The proof-generation loop of `buildMerkleTree` for one leaf: walk the
levels below the root keeping the current index; record the left neighbour
when the index is odd, the right neighbour when even and present, nothing
when the node was promoted unchanged; halve the index at each level. -/
def proofWalk : List (List Bytes) → Nat → List Bytes
  | [], _ => []
  | [_], _ => []
  | lvl :: rest, index =>
    (if index % 2 = 1 then [lvl.getD (index - 1) []]
     else if index + 1 < lvl.length then [lvl.getD (index + 1) []]
     else []) ++ proofWalk rest (index / 2)

/-- `tree[tree.length - 1][0]`. -/
def rootOfLevels (tree : List (List Bytes)) : Bytes := (tree.getLastD []).getD 0 []

/-- `buildMerkleTree`: throws (`Except.error`) on an empty leaf sequence,
otherwise returns the root and one proof per leaf. -/
def buildMerkleTree (leaves : List Bytes) : Except String MerkleTreeResult :=
  if leaves.length = 0 then .error "Cannot build merkle tree with no leaves"
  else
    let tree := buildLevels leaves
    let root := rootOfLevels tree
    let proofs := (List.range leaves.length).map fun leafIndex => proofWalk tree leafIndex
    .ok ⟨root, proofs⟩

/-- Leaves 1‥N of `computeMerkleRoot`: the n-th operation leaf hashed with
nonce `preOpCount + n`. -/
def operationLeaves (proposal : Proposal) : List Bytes :=
  proposal.instructions.mapIdx fun i ix =>
    hashOperationLeaf proposal ix (proposal.rootMetadata.preOpCount + (i : Int))

/-- `allLeaves` of `computeMerkleRoot`: the metadata leaf followed by the
operation leaves. -/
def allLeaves (proposal : Proposal) : List Bytes :=
  hashMetadataLeaf proposal :: operationLeaves proposal

/-- `computeMerkleRoot`: build the tree over `allLeaves` and drop the
metadata leaf's proof (`proofs.slice(1)`). -/
def computeMerkleRoot (proposal : Proposal) : Except String ProposalWithRoot :=
  match buildMerkleTree (allLeaves proposal) with
  | .error e => .error e
  | .ok r => .ok ⟨proposal, r.root, r.proofs.drop 1⟩

/-- The proof-replay procedure of the specification (§8): starting from the
leaf's own hash, absorb each sibling hash of the proof in order with the
sorted-pair hash. -/
def replayProof (leafHash : Bytes) (proof : List Bytes) : Bytes :=
  proof.foldl hashPair leafHash

/-! ## Mutation tracker (`src/litesim/mutations.ts`) -/

/-- Solana account structure (`src/litesim/types.ts`). -/
structure Account where
  lamports : Nat
  data : Bytes
  owner : Address
  executable : Bool
  rentEpoch : Nat
deriving DecidableEq, Repr

/-- Account mutation tracking between before/after states
(`src/litesim/types.ts`); JavaScript `null` is `Option.none`. -/
structure AccountMutation where
  pubkey : Address
  existedBefore : Bool
  existedAfter : Bool
  ownerBefore : Option Address
  ownerAfter : Option Address
  lamportsBefore : Option Nat
  lamportsAfter : Option Nat
  dataChanged : Bool
  dataBefore : Option Bytes
  dataAfter : Option Bytes
deriving DecidableEq, Repr

/-- `arraysEqual`: length check plus byte-for-byte comparison, i.e. list
equality. -/
def arraysEqual (a b : Bytes) : Bool := a == b

/-- `computeMutation`: the diff record for one address between two optional
account states. -/
def computeMutation (pubkey : Address) (before after : Option Account) : AccountMutation :=
  let existedBefore := before.isSome
  let existedAfter := after.isSome
  let ownerBefore := before.map (·.owner)
  let ownerAfter := after.map (·.owner)
  let lamportsBefore := before.map (·.lamports)
  let lamportsAfter := after.map (·.lamports)
  let dataChanged :=
    match before, after with
    | some b, some a => !arraysEqual b.data a.data
    | none, none => false
    | _, _ => true
  { pubkey := pubkey
    existedBefore := existedBefore
    existedAfter := existedAfter
    ownerBefore := ownerBefore
    ownerAfter := ownerAfter
    lamportsBefore := lamportsBefore
    lamportsAfter := lamportsAfter
    dataChanged := dataChanged
    dataBefore := if dataChanged then before.map (·.data) else none
    dataAfter := if dataChanged then after.map (·.data) else none }

/-- `computeMutations`: one `computeMutation` per tracked address, kept only
if something actually changed.  The JS `Map` snapshots are modelled as
lookup functions, the tracked `Set` as a list of addresses. -/
def computeMutations (trackedAddresses : List Address)
    (before after : Address → Option Account) : List AccountMutation :=
  trackedAddresses.filterMap fun address =>
    let mutation := computeMutation address (before address) (after address)
    if mutation.existedBefore ≠ mutation.existedAfter
        ∨ mutation.ownerBefore ≠ mutation.ownerAfter
        ∨ mutation.lamportsBefore ≠ mutation.lamportsAfter
        ∨ mutation.dataChanged then
      some mutation
    else none

/-! ## Simulation engine (`src/lite-sim/simulator.ts`, `src/lite-sim/simulation.ts`) -/

/-- `EncodedAccount` of `@solana/kit` as used by the simulator. -/
structure EncodedAccount where
  address : Address
  lamports : Nat
  data : Bytes
  programAddress : Address
  executable : Bool
  space : Nat
deriving DecidableEq, Repr

/-- Payer configuration for a simulation (`src/lite-sim/simulation.ts`). -/
structure PayerConfig where
  address : Address
  airdropAmount : Option Nat
deriving DecidableEq, Repr

/-- `Instruction` of `@solana/kit`: program address, account metas with a
role number (0 = Writable, 1 = WritableSigner, 2 = Readonly,
3 = ReadonlySigner), data. -/
structure KitAccountMeta where
  address : Address
  role : Nat
deriving DecidableEq, Repr

structure Instruction where
  programAddress : Address
  accounts : List KitAccountMeta
  data : Bytes
deriving DecidableEq, Repr

/-- Simulation trait (`src/lite-sim/simulation.ts`): the zero-argument
methods are modelled by their values. -/
structure Simulation where
  payer : Nat → PayerConfig
  accountsToLoad : List Address
  accountOverrides : List (Address × EncodedAccount)
  clockTimestamp : Option Int
  batches : List (List Instruction)
  accountsToTrack : Nat → List Address

/-- Legacy `TransactionInstruction` of `@solana/web3.js`: keys are
`(pubkey, isSigner, isWritable)`. -/
structure TransactionInstruction where
  programId : Address
  keys : List (Address × Bool × Bool)
  data : Bytes
deriving DecidableEq, Repr

/-- Legacy `Transaction` of `@solana/web3.js` as assembled by `executeBatch`. -/
structure Transaction where
  recentBlockhash : Bytes
  feePayer : Address
  instructions : List TransactionInstruction
deriving DecidableEq, Repr

/-- litesvm `AccountInfo` as passed to `setAccount` / returned by
`getAccount`. -/
structure SvmAccountInfo where
  lamports : Nat
  data : Bytes
  owner : Address
  executable : Bool
deriving DecidableEq, Repr

/-- Outcome of `svm.sendTransaction`: success, a sandbox-reported failure
(`FailedTransactionMetadata`, carrying an error description), or a thrown
JavaScript exception (any internal error inside the `try` block of
`executeBatch`, caught by its `catch`).  Each outcome carries the sandbox
state afterwards. -/
inductive TxResult (σ : Type) where
  | ok (state : σ)
  | failed (err : String) (state : σ)
  | threw (err : String) (state : σ)

/-- The external `litesvm` sandbox, §6's black-box execution environment:
a record of state-transition functions over an abstract state `σ`. -/
structure Svm (σ : Type) where
  setAccount : σ → Address → SvmAccountInfo → σ
  getAccount : σ → Address → Option SvmAccountInfo
  airdrop : σ → Address → Nat → σ
  warpToSlot : σ → Int → σ
  latestBlockhash : σ → Bytes
  sendTransaction : σ → Transaction → TxResult σ

/-- `snapshotAccounts`: the `Map` built over the tracked addresses that
exist in the sandbox, each converted to an `EncodedAccount`. -/
def snapshotAccounts {σ : Type} (svm : Svm σ) (state : σ) (addresses : List Address) :
    Address → Option EncodedAccount :=
  fun addr =>
    if addr ∈ addresses then
      (svm.getAccount state addr).map fun account =>
        ⟨addr, account.lamports, account.data, account.owner, account.executable,
         account.data.length⟩
    else none

/-- The `computeMutation` of `src/lite-sim/mutations.ts` (the module
`src/lite-sim/simulator.ts` imports as `./mutations`; its source sits in
the concatenated lite-sim sources of `src/lite-sim/index.ts`): the same
diff as `computeMutation` of `src/litesim/mutations.ts`, but over the
simulator's `EncodedAccount` snapshots, with the owning program read from
`programAddress`.  Prefixed `liteSim` here to keep the two variants
apart. -/
def liteSimComputeMutation (pubkey : Address) (before after : Option EncodedAccount) :
    AccountMutation :=
  let dataChanged :=
    match before, after with
    | some b, some a => !arraysEqual b.data a.data
    | none, none => false
    | _, _ => true
  { pubkey := pubkey
    existedBefore := before.isSome
    existedAfter := after.isSome
    ownerBefore := before.map (·.programAddress)
    ownerAfter := after.map (·.programAddress)
    lamportsBefore := before.map (·.lamports)
    lamportsAfter := after.map (·.lamports)
    dataChanged := dataChanged
    dataBefore := if dataChanged then before.map (·.data) else none
    dataAfter := if dataChanged then after.map (·.data) else none }

/-- The `computeMutations` of `src/lite-sim/mutations.ts` (source in the
concatenated lite-sim sources of `src/lite-sim/index.ts`): one
`computeMutation` per tracked address, kept only if existence, owner,
lamports, or data actually changed. -/
def liteSimComputeMutations (trackedAddresses : List Address)
    (before after : Address → Option EncodedAccount) : List AccountMutation :=
  trackedAddresses.filterMap fun address =>
    let mutation := liteSimComputeMutation address (before address) (after address)
    if mutation.existedBefore ≠ mutation.existedAfter
        ∨ mutation.ownerBefore ≠ mutation.ownerAfter
        ∨ mutation.lamportsBefore ≠ mutation.lamportsAfter
        ∨ mutation.dataChanged then
      some mutation
    else none

/-- Result of executing a single batch (`src/lite-sim/simulator.ts`). -/
structure BatchResult where
  index : Nat
  success : Bool
  error : Option String
  mutations : List AccountMutation
deriving DecidableEq, Repr

/-- Complete simulation results. -/
structure SimulationResults where
  batchResults : List BatchResult
  loadedAccounts : List (Address × EncodedAccount)
  accountOverrides : List (Address × EncodedAccount)

/-- The instruction conversion of `executeBatch`:
`isSigner ⇔ role ∈ {1, 3}`, `isWritable ⇔ role ∈ {0, 1}`. -/
def toLegacyInstruction (ix : Instruction) : TransactionInstruction :=
  ⟨ix.programAddress,
   ix.accounts.map fun acc =>
     (acc.address, acc.role == 1 || acc.role == 3, acc.role == 0 || acc.role == 1),
   ix.data⟩

/-- `executeBatch`: airdrop to the payer if requested, snapshot the tracked
accounts, submit the batch; on a sandbox failure or a thrown exception
return a failed `BatchResult` with an empty mutation list, otherwise
snapshot again and compute the mutations. -/
def executeBatch {σ : Type} (svm : Svm σ) (state : σ) (simulation : Simulation)
    (batchIndex : Nat) (instructions : List Instruction) : BatchResult × σ :=
  let payerConfig := simulation.payer batchIndex
  let trackedAddresses := simulation.accountsToTrack batchIndex
  let state1 :=
    match payerConfig.airdropAmount with
    | some amount => svm.airdrop state payerConfig.address amount
    | none => state
  let beforeState := snapshotAccounts svm state1 trackedAddresses
  let legacyInstructions := instructions.map toLegacyInstruction
  let transaction : Transaction :=
    ⟨svm.latestBlockhash state1, payerConfig.address, legacyInstructions⟩
  match svm.sendTransaction state1 transaction with
  | .failed err state2 =>
    (⟨batchIndex, false, some err, []⟩, state2)
  | .threw err state2 =>
    (⟨batchIndex, false, some err, []⟩, state2)
  | .ok state2 =>
    let afterState := snapshotAccounts svm state2 trackedAddresses
    let mutations := liteSimComputeMutations trackedAddresses beforeState afterState
    (⟨batchIndex, true, none, mutations⟩, state2)

/-- Step 1 of `runSimulation`: load the fetched accounts into the sandbox.
The RPC fetch itself (`fetchAllAccounts`) is external; its result enters
as the `fetched` association list. -/
def loadAccounts {σ : Type} (svm : Svm σ) (state : σ)
    (fetched : List (Address × EncodedAccount)) : σ :=
  fetched.foldl
    (fun st p => svm.setAccount st p.1 ⟨p.2.lamports, p.2.data, p.2.programAddress, p.2.executable⟩)
    state

/-- Step 2 of `runSimulation`: apply the account overrides. -/
def applyAccountOverrides {σ : Type} (svm : Svm σ) (state : σ) (simulation : Simulation) : σ :=
  simulation.accountOverrides.foldl
    (fun st p => svm.setAccount st p.1 ⟨p.2.lamports, p.2.data, p.2.programAddress, p.2.executable⟩)
    state

/-- Step 3 of `runSimulation`: `svm.warpToSlot(timestamp)` when the
simulation specifies a clock timestamp. -/
def setClockTimestamp {σ : Type} (svm : Svm σ) (state : σ) (simulation : Simulation) : σ :=
  match simulation.clockTimestamp with
  | some timestamp => svm.warpToSlot state timestamp
  | none => state

/-- Step 4 of `runSimulation`: the batch loop, continuing to the next batch
whether or not a batch fails. -/
def executeBatches {σ : Type} (svm : Svm σ) (state : σ) (simulation : Simulation)
    (startIndex : Nat) : List (List Instruction) → List BatchResult × σ
  | [] => ([], state)
  | batch :: rest =>
    let r := executeBatch svm state simulation startIndex batch
    let rs := executeBatches svm r.2 simulation (startIndex + 1) rest
    (r.1 :: rs.1, rs.2)

/-- `runSimulation`: load, override, set the clock, execute every declared
batch in order, aggregate. -/
def runSimulation {σ : Type} (svm : Svm σ) (state : σ)
    (fetched : List (Address × EncodedAccount)) (simulation : Simulation) :
    SimulationResults × σ :=
  let state1 := loadAccounts svm state fetched
  let state2 := applyAccountOverrides svm state1 simulation
  let state3 := setClockTimestamp svm state2 simulation
  let results := executeBatches svm state3 simulation 0 simulation.batches
  (⟨results.1, fetched, simulation.accountOverrides⟩, results.2)

/-! ## Proposal parser (`src/mcm-runner/proposal/parser.ts`) -/

/-- The value of a hexadecimal digit, `none` for any other character. -/
def hexDigitVal? (c : Char) : Option Nat :=
  if '0' ≤ c ∧ c ≤ '9' then some (c.toNat - 48)
  else if 'a' ≤ c ∧ c ≤ 'f' then some (c.toNat - 87)
  else if 'A' ≤ c ∧ c ≤ 'F' then some (c.toNat - 55)
  else none

/-- `bytes[i] = parseInt(byte, 16)` for a two-character chunk: `parseInt`
parses the longest valid prefix (`"1z"` → 1) and yields `NaN` when the
first character is invalid, which the `Uint8Array` store coerces to 0. -/
def jsHexPairByte (c1 c2 : Char) : Nat :=
  match hexDigitVal? c1 with
  | none => 0
  | some d1 =>
    match hexDigitVal? c2 with
    | none => d1
    | some d2 => 16 * d1 + d2

/-- `parseHex`: requires the `0x` prefix and an even number of remaining
characters, then decodes two characters per byte. -/
def parseHex (hex : List Char) : Except String Bytes :=
  match hex with
  | '0' :: 'x' :: hexString =>
    if hexString.length % 2 ≠ 0 then .error "Invalid hex string: odd length"
    else
      .ok ((List.range (hexString.length / 2)).map fun i =>
        jsHexPairByte (hexString.getD (2 * i) ' ') (hexString.getD (2 * i + 1) ' '))
  | _ => .error "Invalid hex string: must start with 0x"

/-- JSON account meta: the base58 `pubkey` string is modelled by its decoded
address (the external `address()` codec is the identity here). -/
structure AccountMetaJson where
  pubkey : Address
  isSigner : Bool
  isWritable : Bool
deriving DecidableEq, Repr

/-- JSON instruction: `data` is modelled by its base64-decoded bytes
(`parseBase64` is total on base64 strings). -/
structure ProposalInstructionJson where
  programId : Address
  data : Bytes
  accounts : List AccountMetaJson
deriving DecidableEq, Repr

/-- JSON root metadata: the numeric fields are JSON numbers. -/
structure RootMetadataJson where
  chainId : Int
  multisig : Address
  preOpCount : Int
  postOpCount : Int
  overridePreviousRoot : Bool
deriving DecidableEq, Repr

/-- JSON format of the proposal as loaded from file; `multisigId` is the raw
0x-prefixed hex string. -/
structure ProposalJson where
  multisigId : List Char
  validUntil : Int
  instructions : List ProposalInstructionJson
  rootMetadata : RootMetadataJson
deriving DecidableEq, Repr

/-- `validateProposal`: parse the multisig identifier, check its length,
check `postOpCount > preOpCount` and the operation count, then build the
in-memory `Proposal`. -/
def validateProposal (json : ProposalJson) : Except String Proposal :=
  match parseHex json.multisigId with
  | .error e => .error e
  | .ok multisigId =>
    if multisigId.length ≠ 32 then .error "multisigId must be 32 bytes"
    else
      let rootMetadata : RootMetadata :=
        ⟨json.rootMetadata.chainId, json.rootMetadata.multisig, json.rootMetadata.preOpCount,
         json.rootMetadata.postOpCount, json.rootMetadata.overridePreviousRoot⟩
      if rootMetadata.postOpCount ≤ rootMetadata.preOpCount then
        .error "postOpCount must be > preOpCount"
      else
        let expectedInstructionCount := rootMetadata.postOpCount - rootMetadata.preOpCount
        if (json.instructions.length : Int) ≠ expectedInstructionCount then
          .error "instruction count mismatch"
        else
          let instructions := json.instructions.map fun ix =>
            ProposalInstruction.mk ix.programId ix.data
              (ix.accounts.map fun acc => ⟨acc.pubkey, acc.isSigner, acc.isWritable⟩)
          .ok ⟨multisigId, json.validUntil, instructions, rootMetadata⟩

/-! ## MCM simulation factory (`src/mcm-runner/simulation.ts`) -/

/-- The MCM program-derived addresses (`McmPdas` of
`src/mcm-runner/program/pda.ts`; their derivation is external). -/
structure McmPdas where
  multisigConfig : Address
  multisigSigner : Address
  rootMetadata : Address
  expiringRootAndOpCount : Address
deriving DecidableEq, Repr

/-- `ExpiringRootAndOpCount` account data (`src/mcm-runner/program/accounts.ts`). -/
structure ExpiringRootAndOpCount where
  root : Bytes
  validUntil : Int
  opCount : Int
deriving DecidableEq, Repr

/-- `encodeExpiringRootAndOpCount`: sha-256 discriminator (external, passed
in) followed by 32 bytes root, u32 `validUntil`, u64 `opCount`, all
little-endian. -/
def encodeExpiringRootAndOpCount (discriminator : Bytes) (d : ExpiringRootAndOpCount) : Bytes :=
  discriminator ++ concatParts [d.root, leBytes4 d.validUntil, leBytes8 d.opCount]

/-- `encodeRootMetadata`: discriminator, u64 chain id, 32-byte multisig,
u64 pre/post op counts, 1 boolean byte. -/
def encodeRootMetadata (discriminator : Bytes) (d : RootMetadata) : Bytes :=
  discriminator ++ concatParts
    [leBytes8 d.chainId, d.multisig, leBytes8 d.preOpCount, leBytes8 d.postOpCount,
     [if d.overridePreviousRoot then 1 else 0]]

/-- `ExecuteArgs` of `src/mcm-runner/program/instruction.ts`. -/
structure ExecuteArgs where
  multisigId : Bytes
  chainId : Int
  nonce : Int
  data : Bytes
  proof : List Bytes
deriving DecidableEq, Repr

/-- `encodeExecuteArgs` (Borsh-compatible): 32-byte id, u64 chain id, u64
nonce, u32-length-prefixed data, u32-length-prefixed 32-byte proof
elements, every integer little-endian. -/
def encodeExecuteArgs (args : ExecuteArgs) : Bytes :=
  concatParts
    [args.multisigId, leBytes8 args.chainId, leBytes8 args.nonce,
     leBytes4 (args.data.length : Int), args.data,
     leBytes4 (args.proof.length : Int), concatParts args.proof]

/-- `toAccountMeta`: writable+signer → 1, writable → 0, signer → 3, else 2. -/
def toAccountMeta (meta : AccountMeta) : KitAccountMeta :=
  ⟨meta.pubkey,
   if meta.isWritable && meta.isSigner then 1
   else if meta.isWritable then 0
   else if meta.isSigner then 3
   else 2⟩

/-- `buildExecuteInstruction`: the `execute` instruction discriminator
(external sha-256, passed in) plus encoded args, with the fixed account
list followed by the remaining accounts. -/
def buildExecuteInstruction (ixDiscriminator : Bytes) (mcmProgram : Address) (pdas : McmPdas)
    (args : ExecuteArgs) (toProgram : Address) (remainingAccounts : List AccountMeta)
    (authority : Address) : Instruction :=
  let data := ixDiscriminator ++ encodeExecuteArgs args
  let accounts :=
    [toAccountMeta ⟨pdas.multisigConfig, false, true⟩,
     toAccountMeta ⟨pdas.rootMetadata, false, false⟩,
     toAccountMeta ⟨pdas.expiringRootAndOpCount, false, true⟩,
     toAccountMeta ⟨toProgram, false, false⟩,
     toAccountMeta ⟨pdas.multisigSigner, false, false⟩,
     toAccountMeta ⟨authority, true, true⟩] ++ remainingAccounts.map toAccountMeta
  ⟨mcmProgram, accounts, data⟩

/-- MCM simulation configuration. -/
structure McmSimulationConfig where
  proposalWithRoot : ProposalWithRoot
  mcmProgram : Address
  authority : Option Address

/-- The external inputs of `createMcmSimulation`: the PDAs derived by
`deriveMcmPdas` (`src/mcm-runner/program/pda.ts`, external derivation),
the `PublicKey.unique()` fallback authority, and the sha-256 account and
instruction discriminators. -/
structure McmExternals where
  pdas : McmPdas
  freshAuthority : Address
  executeDiscriminator : Bytes
  expiringRootDiscriminator : Bytes
  rootMetadataDiscriminator : Bytes

/-- `createMcmSimulation`: the `Simulation` record built for an MCM
proposal; in particular `clockTimestamp()` always returns
`validUntil - 3600`. -/
def createMcmSimulation (ext : McmExternals) (config : McmSimulationConfig) : Simulation :=
  let proposal := config.proposalWithRoot.proposal
  let operationProofs := config.proposalWithRoot.operationProofs
  let authority := config.authority.getD ext.freshAuthority
  let expiringRootData := encodeExpiringRootAndOpCount ext.expiringRootDiscriminator
    ⟨config.proposalWithRoot.root, proposal.validUntil, proposal.rootMetadata.preOpCount⟩
  let expiringRootAccount : EncodedAccount :=
    ⟨ext.pdas.expiringRootAndOpCount, 1000000, expiringRootData, config.mcmProgram, false,
     expiringRootData.length⟩
  let rootMetadataData := encodeRootMetadata ext.rootMetadataDiscriminator proposal.rootMetadata
  let rootMetadataAccount : EncodedAccount :=
    ⟨ext.pdas.rootMetadata, 1000000, rootMetadataData, config.mcmProgram, false,
     rootMetadataData.length⟩
  { payer := fun _ =>
      ⟨authority, if config.authority.isNone then some 100000000000 else none⟩
    accountsToLoad :=
      ([config.mcmProgram, ext.pdas.multisigConfig, ext.pdas.multisigSigner]
        ++ (if config.authority.isSome then [authority] else [])
        ++ proposal.instructions.flatMap fun ix =>
            ix.programId :: ix.accounts.map (·.pubkey)).eraseDups
    accountOverrides :=
      [(ext.pdas.expiringRootAndOpCount, expiringRootAccount),
       (ext.pdas.rootMetadata, rootMetadataAccount)]
    clockTimestamp := some (proposal.validUntil - 3600)
    batches := proposal.instructions.mapIdx fun i ix =>
      [buildExecuteInstruction ext.executeDiscriminator config.mcmProgram ext.pdas
        ⟨proposal.multisigId, proposal.rootMetadata.chainId,
         proposal.rootMetadata.preOpCount + (i : Int), ix.data, operationProofs.getD i []⟩
        ix.programId ix.accounts authority]
    accountsToTrack := fun batchIndex =>
      ([ext.pdas.multisigConfig, ext.pdas.rootMetadata, ext.pdas.expiringRootAndOpCount,
        authority]
        ++ if h : batchIndex < proposal.instructions.length then
            (proposal.instructions.get ⟨batchIndex, h⟩).accounts.map (·.pubkey)
          else []).eraseDups }

/-! ## Statement helpers and concrete example inputs -/

/-- §4.4's "raw data bytes differ" relation on optional account states:
creation or deletion always counts as a data change, two absent states do
not. -/
def dataDiffers : Option Account → Option Account → Prop
  | some b, some a => b.data ≠ a.data
  | none, none => False
  | _, _ => True

/-- A minimal operation used in concrete examples. -/
def exampleInstruction (n : Nat) : ProposalInstruction :=
  ⟨List.replicate 32 n, [n], []⟩

/-- A concrete proposal with exactly 4 operations
(`preOpCount = 6`, `postOpCount = 10`). -/
def exampleProposal4 : Proposal :=
  ⟨List.replicate 32 7, 1000,
   [exampleInstruction 1, exampleInstruction 2, exampleInstruction 3, exampleInstruction 4],
   ⟨1, List.replicate 32 9, 6, 10, false⟩⟩

/-- A concrete sandbox over state `Nat`: the transaction submission fails
(with error "boom") exactly on state 0 and bumps the state. -/
def exampleSvm : Svm Nat :=
  ⟨fun s _ _ => s, fun _ _ => none, fun s _ _ => s, fun s _ => s, fun _ => [],
   fun s _ => if s = 0 then .failed "boom" (s + 1) else .ok (s + 1)⟩

/-- A concrete simulation declaring two empty batches; under `exampleSvm`
started at state 0, batch 0 fails and batch 1 succeeds. -/
def exampleSimulation : Simulation :=
  ⟨fun _ => ⟨List.replicate 32 1, none⟩, [], [], none, [[], []], fun _ => []⟩

/-- A concrete account used in the mutation examples. -/
def exampleAccount : Account := ⟨5, [], List.replicate 32 1, false, 0⟩

/-- Concrete before-snapshot: no account exists. -/
def exampleBefore : Address → Option Account := fun _ => none

/-- Concrete after-snapshot: the account at address `[1]` was created with
zero-length data. -/
def exampleAfter : Address → Option Account :=
  fun a => if a = [1] then some exampleAccount else none

/-- A concrete well-formed proposal JSON: 32-byte zero identifier, one
instruction, `preOpCount = 6`, `postOpCount = 7`. -/
def exampleJson : ProposalJson :=
  ⟨'0' :: 'x' :: List.replicate 64 '0', 500,
   [⟨List.replicate 32 3, [], []⟩],
   ⟨1, List.replicate 32 9, 6, 7, false⟩⟩

/-! ## Lemmas about the Merkle builder -/

theorem compareBytes_eq_iff (a : Bytes) : ∀ b : Bytes, compareBytes a b = .eq ↔ a = b := by
  induction a with
  | nil => intro b; cases b <;> simp [compareBytes]
  | cons x xs ih =>
    intro b
    cases b with
    | nil => simp [compareBytes]
    | cons y ys =>
      simp only [compareBytes]
      split_ifs with h1 h2
      · constructor
        · intro h; simp at h
        · intro h; injection h with hx _; omega
      · constructor
        · intro h; simp at h
        · intro h; injection h with hx _; omega
      · have hxy : x = y := by omega
        subst hxy
        rw [ih ys]
        constructor
        · intro h; rw [h]
        · intro h; injection h

theorem compareBytes_lt_iff_gt (a : Bytes) : ∀ b : Bytes, compareBytes a b = .lt ↔ compareBytes b a = .gt := by
  induction a with
  | nil => intro b; cases b <;> simp [compareBytes]
  | cons x xs ih =>
    intro b
    cases b with
    | nil => simp [compareBytes]
    | cons y ys =>
      simp only [compareBytes]
      rcases Nat.lt_trichotomy x y with h | h | h
      · rw [if_pos h, if_neg (by omega), if_pos h]
        simp
      · subst h
        rw [if_neg (by omega), if_neg (by omega), if_neg (by omega), if_neg (by omega)]
        exact ih ys
      · rw [if_neg (by omega), if_pos h, if_pos h]
        simp

theorem hashPair_comm (a b : Bytes) : hashPair a b = hashPair b a := by
  unfold hashPair
  rcases hc : compareBytes a b with _ | _ | _
  · have h2 : compareBytes b a = .gt := (compareBytes_lt_iff_gt a b).mp hc
    simp [h2]
  · have hab : a = b := (compareBytes_eq_iff a b).mp hc
    subst hab
    simp [hc]
  · have h2 : compareBytes b a = .lt := (compareBytes_lt_iff_gt b a).mpr hc
    simp [hc, h2]

theorem nextLevel_length : ∀ l : List Bytes, (nextLevel l).length = (l.length + 1) / 2
  | [] => rfl
  | [_] => by simp [nextLevel]
  | _ :: _ :: rest => by
    simp only [nextLevel, List.length_cons]
    rw [nextLevel_length rest]
    omega

theorem nextLevel_getD : ∀ (l : List Bytes) (k : Nat), 2 * k < l.length →
    (nextLevel l).getD k [] =
      if 2 * k + 1 < l.length then hashPair (l.getD (2 * k) []) (l.getD (2 * k + 1) [])
      else l.getD (2 * k) []
  | [], k, h => by simp at h
  | [a], k, h => by
    have hk : k = 0 := by simp at h; omega
    subst hk
    simp [nextLevel]
  | a :: b :: rest, k, h => by
    cases k with
    | zero =>
      have hg : 2 * 0 + 1 < (a :: b :: rest).length := by simp
      rw [if_pos hg]
      rfl
    | succ k' =>
      have h' : 2 * k' < rest.length := by simp at h; omega
      have ihr := nextLevel_getD rest k' h'
      have e0 : 2 * (k' + 1) = 2 * k' + 2 := by ring
      show (hashPair a b :: nextLevel rest).getD (k' + 1) [] = _
      rw [List.getD_cons_succ, ihr, e0]
      have e2 : (a :: b :: rest).getD (2 * k' + 2) ([] : Bytes) = rest.getD (2 * k') [] := by
        simp [List.getD_cons_succ]
      have e3 : (a :: b :: rest).getD (2 * k' + 2 + 1) ([] : Bytes) = rest.getD (2 * k' + 1) [] := by
        simp [List.getD_cons_succ]
      rw [e2, e3]
      refine if_congr ?_ rfl rfl
      simp only [List.length_cons]
      omega

theorem buildLevelsGo_ne_nil (fuel : Nat) (l : List Bytes) : buildLevelsGo fuel l ≠ [] := by
  cases fuel with
  | zero => simp [buildLevelsGo]
  | succ n =>
    simp only [buildLevelsGo]
    split <;> simp

theorem buildLevelsGo_fuel (fuel : Nat) : ∀ (fuel' : Nat) (l : List Bytes),
    l.length ≤ fuel + 1 → l.length ≤ fuel' + 1 → buildLevelsGo fuel l = buildLevelsGo fuel' l := by
  induction fuel with
  | zero =>
    intro fuel' l h h'
    cases fuel' with
    | zero => rfl
    | succ m =>
      simp only [buildLevelsGo]
      rw [if_pos (by omega)]
  | succ n ih =>
    intro fuel' l h h'
    by_cases hl : l.length ≤ 1
    · cases fuel' with
      | zero => simp only [buildLevelsGo]; rw [if_pos hl]
      | succ m => simp only [buildLevelsGo]; rw [if_pos hl, if_pos hl]
    · cases fuel' with
      | zero => omega
      | succ m =>
        simp only [buildLevelsGo]
        rw [if_neg hl, if_neg hl]
        have hnl : (nextLevel l).length = (l.length + 1) / 2 := nextLevel_length l
        exact congrArg (l :: ·) (ih m (nextLevel l) (by omega) (by omega))

theorem getLastD_of_ne_nil {α : Type} : ∀ (l : List α), l ≠ [] → ∀ d d' : α, l.getLastD d = l.getLastD d'
  | [], h, _, _ => absurd rfl h
  | [a], _, _, _ => rfl
  | a :: b :: rest, _, d, d' => by
    show (b :: rest).getLastD a = (b :: rest).getLastD a
    rfl

theorem rootOfLevels_cons (lvl : List Bytes) (t : List Bytes) (ts : List (List Bytes)) :
    rootOfLevels (lvl :: t :: ts) = rootOfLevels (t :: ts) := by
  unfold rootOfLevels
  have h1 : (lvl :: t :: ts).getLastD [] = (t :: ts).getLastD lvl := rfl
  rw [h1, getLastD_of_ne_nil (t :: ts) (by simp) lvl []]

theorem replay_single (l : Bytes) :
    replayProof (([l].getD 0 []) : Bytes) (proofWalk [[l]] 0) = rootOfLevels [[l]] := by
  simp [proofWalk, replayProof, rootOfLevels]

theorem replay_buildLevelsGo (fuel : Nat) : ∀ (l : List Bytes) (i : Nat),
    l.length ≤ fuel + 1 → i < l.length →
    replayProof (l.getD i []) (proofWalk (buildLevelsGo fuel l) i) =
      rootOfLevels (buildLevelsGo fuel l) := by
  induction fuel with
  | zero =>
    intro l i h hi
    have h1 : l.length = 1 := by omega
    have hi0 : i = 0 := by omega
    subst hi0
    obtain ⟨x, hx⟩ : ∃ x, l = [x] := by
      cases l with
      | nil => simp at h1
      | cons a as =>
        cases as with
        | nil => exact ⟨a, rfl⟩
        | cons b bs => simp at h1
    subst hx
    simp [buildLevelsGo, proofWalk, replayProof, rootOfLevels]
  | succ n ih =>
    intro l i h hi
    by_cases hl : l.length ≤ 1
    · have h1 : l.length = 1 := by omega
      have hi0 : i = 0 := by omega
      subst hi0
      obtain ⟨x, hx⟩ : ∃ x, l = [x] := by
        cases l with
        | nil => simp at h1
        | cons a as =>
          cases as with
          | nil => exact ⟨a, rfl⟩
          | cons b bs => simp at h1
      subst hx
      simp [buildLevelsGo, proofWalk, replayProof, rootOfLevels]
    · have hred : buildLevelsGo (n + 1) l = l :: buildLevelsGo n (nextLevel l) := by
        simp only [buildLevelsGo]
        rw [if_neg hl]
      rw [hred]
      obtain ⟨t, ts, hT⟩ : ∃ t ts, buildLevelsGo n (nextLevel l) = t :: ts := by
        cases hT : buildLevelsGo n (nextLevel l) with
        | nil => exact absurd hT (buildLevelsGo_ne_nil n _)
        | cons t ts => exact ⟨t, ts, rfl⟩
      rw [hT]
      show replayProof (l.getD i [])
        ((if i % 2 = 1 then [l.getD (i - 1) []]
          else if i + 1 < l.length then [l.getD (i + 1) []]
          else []) ++ proofWalk (t :: ts) (i / 2)) = _
      unfold replayProof
      rw [List.foldl_append]
      have hstep : List.foldl hashPair (l.getD i [])
          (if i % 2 = 1 then [l.getD (i - 1) []]
           else if i + 1 < l.length then [l.getD (i + 1) []]
           else []) = (nextLevel l).getD (i / 2) [] := by
        rcases Nat.even_or_odd i with he | ho
        · have h2 : i % 2 = 0 := Nat.even_iff.mp he
          rw [if_neg (by omega)]
          have hk : 2 * (i / 2) = i := by omega
          by_cases hg : i + 1 < l.length
          · rw [if_pos hg]
            rw [nextLevel_getD l (i / 2) (by omega), if_pos (by omega), hk]
            rfl
          · rw [if_neg hg]
            rw [nextLevel_getD l (i / 2) (by omega), if_neg (by omega), hk]
            rfl
        · have h2 : i % 2 = 1 := Nat.odd_iff.mp ho
          rw [if_pos h2]
          show hashPair (l.getD i []) (l.getD (i - 1) []) = _
          rw [hashPair_comm]
          rw [nextLevel_getD l (i / 2) (by omega), if_pos (by omega)]
          have e1 : 2 * (i / 2) = i - 1 := by omega
          have e2 : 2 * (i / 2) + 1 = i := by omega
          rw [e2, e1]
      rw [hstep]
      have hlen : (nextLevel l).length ≤ n + 1 := by
        have := nextLevel_length l
        omega
      have hidx : i / 2 < (nextLevel l).length := by
        have := nextLevel_length l
        omega
      have hrec := ih (nextLevel l) (i / 2) hlen hidx
      rw [hT] at hrec
      unfold replayProof at hrec
      rw [hrec]
      exact (rootOfLevels_cons l t ts).symm

/-- C1: for every non-empty leaf sequence and every leaf index, replaying
the proof returned by `buildMerkleTree` — starting from the leaf's own
hash and absorbing each sibling with the sorted-pair hash — reconstructs
exactly the returned root. -/
theorem merkle_proof_replays_to_root (leaves : List Bytes) (i : Nat)
    (hne : leaves ≠ []) (hi : i < leaves.length) :
    ∃ r, buildMerkleTree leaves = .ok r ∧
      replayProof (leaves.getD i []) (r.proofs.getD i []) = r.root := by
  have hlen : ¬ leaves.length = 0 := by
    simpa [List.length_eq_zero] using hne
  refine ⟨⟨rootOfLevels (buildLevels leaves),
    (List.range leaves.length).map fun leafIndex => proofWalk (buildLevels leaves) leafIndex⟩,
    ?_, ?_⟩
  · unfold buildMerkleTree
    rw [if_neg hlen]
  · show replayProof (leaves.getD i [])
      (((List.range leaves.length).map fun leafIndex => proofWalk (buildLevels leaves) leafIndex).getD i [])
      = rootOfLevels (buildLevels leaves)
    have hget : ((List.range leaves.length).map fun leafIndex =>
        proofWalk (buildLevels leaves) leafIndex).getD i [] = proofWalk (buildLevels leaves) i := by
      rw [List.getD_eq_getElem?_getD]
      simp [List.getElem?_map, List.getElem?_range, hi]
    rw [hget]
    exact replay_buildLevelsGo leaves.length leaves i (by omega) hi

/-- Witness for C1 at the concrete 3-leaf sequence `[[1],[2],[3]]`, leaf 1. -/
theorem merkle_proof_replays_to_root_witness :
    ∃ r, buildMerkleTree [[1], [2], [3]] = .ok r ∧
      replayProof (([[1], [2], [3]] : List Bytes).getD 1 []) (r.proofs.getD 1 []) = r.root :=
  merkle_proof_replays_to_root [[1], [2], [3]] 1 (by decide) (by decide)

/-- C9: `buildMerkleTree` fails exactly on an empty leaf sequence; on any
non-empty sequence it returns a root and one proof per leaf. -/
theorem buildMerkleTree_empty_iff (leaves : List Bytes) :
    ((∃ e, buildMerkleTree leaves = .error e) ↔ leaves = [])
    ∧ (leaves ≠ [] →
        ∃ r, buildMerkleTree leaves = .ok r ∧ r.proofs.length = leaves.length) := by
  constructor
  · constructor
    · rintro ⟨e, he⟩
      by_contra hne
      have hlen : ¬ leaves.length = 0 := by simpa [List.length_eq_zero] using hne
      unfold buildMerkleTree at he
      rw [if_neg hlen] at he
      cases he
    · intro h
      subst h
      exact ⟨_, rfl⟩
  · intro hne
    have hlen : ¬ leaves.length = 0 := by simpa [List.length_eq_zero] using hne
    refine ⟨⟨rootOfLevels (buildLevels leaves),
      (List.range leaves.length).map fun leafIndex => proofWalk (buildLevels leaves) leafIndex⟩,
      ?_, ?_⟩
    · unfold buildMerkleTree
      rw [if_neg hlen]
    · simp

/-- Witness for C9: the empty sequence errors, a 1-leaf sequence yields one
proof. -/
theorem buildMerkleTree_empty_iff_witness :
    (∃ e, buildMerkleTree ([] : List Bytes) = .error e)
    ∧ (∃ r, buildMerkleTree [[0]] = .ok r ∧ r.proofs.length = 1) :=
  ⟨(buildMerkleTree_empty_iff []).1.mpr rfl, (buildMerkleTree_empty_iff [[0]]).2 (by decide)⟩

theorem nextLevel_getLast? : ∀ l : List Bytes, l.length % 2 = 1 →
    (nextLevel l).getLast? = l.getLast?
  | [], h => by simp at h
  | [_], _ => rfl
  | a :: b :: rest, h => by
    have hr : rest.length % 2 = 1 := by
      simp only [List.length_cons] at h
      omega
    have hrec := nextLevel_getLast? rest hr
    obtain ⟨d, ds, hds⟩ : ∃ d ds, rest = d :: ds := by
      cases rest with
      | nil => simp at hr
      | cons d ds => exact ⟨d, ds, rfl⟩
    subst hds
    obtain ⟨c, cs, hcs⟩ : ∃ c cs, nextLevel (d :: ds) = c :: cs := by
      cases hc : nextLevel (d :: ds) with
      | nil =>
        have hl := nextLevel_length (d :: ds)
        rw [hc] at hl
        simp at hl
        exact absurd hl (by omega)
      | cons c cs => exact ⟨c, cs, rfl⟩
    show (hashPair a b :: nextLevel (d :: ds)).getLast? = (a :: b :: d :: ds).getLast?
    rw [hcs]
    simp only [List.getLast?_cons_cons]
    rw [← hcs]
    exact hrec

/-- C8: at a level with an odd number of nodes (≥ 3) the last node is
promoted unchanged to the next level, and the proof of that last leaf gets
no entry at this level — it continues directly as the proof of the
promoted node one level up (no duplicate hash is recorded). -/
theorem merkle_odd_promotion (l : List Bytes) (hodd : l.length % 2 = 1) (h3 : 3 ≤ l.length) :
    (nextLevel l).getLast? = l.getLast?
    ∧ proofWalk (buildLevels l) (l.length - 1) =
        proofWalk (buildLevels (nextLevel l)) ((l.length - 1) / 2) := by
  refine ⟨nextLevel_getLast? l hodd, ?_⟩
  have hlen1 : ¬ l.length ≤ 1 := by omega
  obtain ⟨m, hm⟩ : ∃ m, l.length = m + 1 := ⟨l.length - 1, by omega⟩
  have hred : buildLevels l = l :: buildLevelsGo (l.length - 1) (nextLevel l) := by
    unfold buildLevels
    rw [hm]
    simp only [buildLevelsGo]
    rw [if_neg (by omega)]
    have hm' : m = l.length - 1 := by omega
    rw [hm']
    simp
  obtain ⟨t, ts, hT⟩ : ∃ t ts, buildLevelsGo (l.length - 1) (nextLevel l) = t :: ts := by
    cases hc : buildLevelsGo (l.length - 1) (nextLevel l) with
    | nil => exact absurd hc (buildLevelsGo_ne_nil _ _)
    | cons t ts => exact ⟨t, ts, rfl⟩
  rw [hred, hT]
  show (if (l.length - 1) % 2 = 1 then [l.getD (l.length - 1 - 1) []]
        else if (l.length - 1) + 1 < l.length then [l.getD ((l.length - 1) + 1) []]
        else []) ++ proofWalk (t :: ts) ((l.length - 1) / 2) = _
  rw [if_neg (by omega), if_neg (by omega)]
  have hfe : buildLevels (nextLevel l) = buildLevelsGo (l.length - 1) (nextLevel l) := by
    unfold buildLevels
    have hnl := nextLevel_length l
    exact buildLevelsGo_fuel (nextLevel l).length (l.length - 1) (nextLevel l)
      (by omega) (by omega)
  rw [hfe, hT]
  simp

/-- Witness for C8 at the concrete odd level `[[1],[2],[3]]`. -/
theorem merkle_odd_promotion_witness :
    (nextLevel [[1], [2], [3]]).getLast? = ([[1], [2], [3]] : List Bytes).getLast?
    ∧ proofWalk (buildLevels [[1], [2], [3]]) 2 =
        proofWalk (buildLevels (nextLevel [[1], [2], [3]])) 1 :=
  merkle_odd_promotion [[1], [2], [3]] (by decide) (by decide)

/-- C4: `computeMerkleRoot` always succeeds, uses leaf 0 = metadata leaf and
leaf n+1 = operation leaf n with nonce `preOpCount + n`, and returns
exactly one proof per operation — the proofs of leaves 1‥N, the metadata
leaf's own proof being discarded. -/
theorem computeMerkleRoot_leaves_and_proofs (p : Proposal) :
    ∃ r t, computeMerkleRoot p = .ok r ∧ buildMerkleTree (allLeaves p) = .ok t ∧
      r.proposal = p ∧ r.root = t.root ∧
      r.operationProofs.length = p.instructions.length ∧
      t.proofs.length = p.instructions.length + 1 ∧
      (∀ n, n < p.instructions.length →
        r.operationProofs.getD n [] = t.proofs.getD (n + 1) []) ∧
      allLeaves p = hashMetadataLeaf p ::
        (p.instructions.mapIdx fun n ix =>
          hashOperationLeaf p ix (p.rootMetadata.preOpCount + (n : Int))) := by
  have hal : (allLeaves p).length = p.instructions.length + 1 := by
    simp [allLeaves, operationLeaves]
  have hlen0 : ¬ (allLeaves p).length = 0 := by omega
  set T : MerkleTreeResult := ⟨rootOfLevels (buildLevels (allLeaves p)),
    (List.range (allLeaves p).length).map fun leafIndex =>
      proofWalk (buildLevels (allLeaves p)) leafIndex⟩ with hTdef
  have hbt : buildMerkleTree (allLeaves p) = .ok T := by
    unfold buildMerkleTree
    rw [if_neg hlen0]
  refine ⟨⟨p, T.root, T.proofs.drop 1⟩, T, ?_, hbt, rfl, rfl, ?_, ?_, ?_, rfl⟩
  · unfold computeMerkleRoot
    rw [hbt]
  · simp [hTdef, hal]
  · simp [hTdef, hal]
  · intro n hn
    show (T.proofs.drop 1).getD n [] = T.proofs.getD (n + 1) []
    rw [List.getD_eq_getElem?_getD, List.getD_eq_getElem?_getD, List.getElem?_drop]
    rw [Nat.add_comm 1 n]

/-- Witness for C4 at the concrete 4-operation proposal, projecting the
per-operation proof identity at operation 0. -/
theorem computeMerkleRoot_leaves_and_proofs_witness :
    ∃ r t, computeMerkleRoot exampleProposal4 = .ok r ∧
      buildMerkleTree (allLeaves exampleProposal4) = .ok t ∧
      r.operationProofs.length = 4 ∧ r.operationProofs.getD 0 [] = t.proofs.getD 1 [] := by
  obtain ⟨r, t, h1, h2, _, _, h5, _, h7, _⟩ :=
    computeMerkleRoot_leaves_and_proofs exampleProposal4
  exact ⟨r, t, h1, h2, h5, h7 0 (by decide)⟩

set_option maxRecDepth 40000 in
theorem fourOps_structure (p : Proposal) (h4 : p.instructions.length = 4) :
    ∃ r, computeMerkleRoot p = .ok r ∧ (allLeaves p).length = 5 ∧
      (buildLevels (allLeaves p)).length = 4 ∧
      r.operationProofs.map List.length = [3, 3, 3, 1] := by
  have h5 : (allLeaves p).length = 5 := by
    simp [allLeaves, operationLeaves, h4]
  obtain ⟨x0, x1, x2, x3, x4, hx⟩ :
      ∃ x0 x1 x2 x3 x4, allLeaves p = [x0, x1, x2, x3, x4] := by
    rcases hL : allLeaves p with _ | ⟨x0, _ | ⟨x1, _ | ⟨x2, _ | ⟨x3, _ | ⟨x4, _ | ⟨x5, tl⟩⟩⟩⟩⟩⟩
    · rw [hL] at h5; simp at h5
    · rw [hL] at h5; simp at h5
    · rw [hL] at h5; simp at h5
    · rw [hL] at h5; simp at h5
    · rw [hL] at h5; simp at h5
    · exact ⟨x0, x1, x2, x3, x4, rfl⟩
    · rw [hL] at h5; simp [List.length_cons] at h5
  refine ⟨⟨p, rootOfLevels (buildLevels (allLeaves p)),
    ((List.range (allLeaves p).length).map fun leafIndex =>
      proofWalk (buildLevels (allLeaves p)) leafIndex).drop 1⟩, ?_, h5, ?_, ?_⟩
  · unfold computeMerkleRoot buildMerkleTree
    rw [if_neg (by omega)]
  · rw [hx]
    exact rfl
  · show (((List.range (allLeaves p).length).map fun leafIndex =>
      proofWalk (buildLevels (allLeaves p)) leafIndex).drop 1).map List.length = [3, 3, 3, 1]
    rw [h5, hx]
    exact rfl

/-- C5 (amended): a proposal with exactly 4 operations yields 5 leaves and a
tree of 4 levels (depth 3); the proofs of operations 1–3 have exactly 3
sibling entries, while operation 4's proof has exactly 1 (its leaf is
promoted unchanged through two levels). -/
theorem computeMerkleRoot_four_operations (p : Proposal) (h4 : p.instructions.length = 4) :
    ∃ r, computeMerkleRoot p = .ok r ∧ (allLeaves p).length = 5 ∧
      (buildLevels (allLeaves p)).length = 4 ∧
      r.operationProofs.map List.length = [3, 3, 3, 1] :=
  fourOps_structure p h4

/-- Counterexample to C5 as stated: for the concrete 4-operation proposal
`exampleProposal4`, not every operation proof has exactly 3 sibling
entries (the 4th has 1). -/
theorem computeMerkleRoot_four_operations_counterexample :
    exampleProposal4.instructions.length = 4 ∧
    ∃ r, computeMerkleRoot exampleProposal4 = .ok r ∧
      ¬ ∀ proof ∈ r.operationProofs, proof.length = 3 := by
  obtain ⟨r, hok, _, _, hmap⟩ := fourOps_structure exampleProposal4 rfl
  refine ⟨rfl, r, hok, ?_⟩
  intro hall
  have h1 : (1 : Nat) ∈ r.operationProofs.map List.length := by
    rw [hmap]
    simp
  obtain ⟨pr, hpr, hlen⟩ := List.mem_map.mp h1
  have := hall pr hpr
  omega

/-- Witness for C5 (amended) at `exampleProposal4`. -/
theorem computeMerkleRoot_four_operations_witness :
    ∃ r, computeMerkleRoot exampleProposal4 = .ok r ∧
      (allLeaves exampleProposal4).length = 5 ∧
      (buildLevels (allLeaves exampleProposal4)).length = 4 ∧
      r.operationProofs.map List.length = [3, 3, 3, 1] :=
  computeMerkleRoot_four_operations exampleProposal4 rfl

/-! ## Lemmas about the simulation engine -/

theorem executeBatch_shape {σ : Type} (svm : Svm σ) (state : σ) (simulation : Simulation)
    (batchIndex : Nat) (instructions : List Instruction) :
    (executeBatch svm state simulation batchIndex instructions).1.index = batchIndex
    ∧ ((executeBatch svm state simulation batchIndex instructions).1.success = false →
        (executeBatch svm state simulation batchIndex instructions).1.error.isSome
        ∧ (executeBatch svm state simulation batchIndex instructions).1.mutations = []) := by
  unfold executeBatch
  dsimp only
  split <;> simp

theorem executeBatches_spec {σ : Type} (svm : Svm σ) (simulation : Simulation) :
    ∀ (batches : List (List Instruction)) (state : σ) (startIndex : Nat),
      (executeBatches svm state simulation startIndex batches).1.length = batches.length
      ∧ ∀ k, k < batches.length →
          ((executeBatches svm state simulation startIndex batches).1.getD k
              ⟨0, true, none, []⟩).index = startIndex + k
          ∧ (((executeBatches svm state simulation startIndex batches).1.getD k
                ⟨0, true, none, []⟩).success = false →
              ((executeBatches svm state simulation startIndex batches).1.getD k
                ⟨0, true, none, []⟩).error.isSome
              ∧ ((executeBatches svm state simulation startIndex batches).1.getD k
                  ⟨0, true, none, []⟩).mutations = []) := by
  intro batches
  induction batches with
  | nil =>
    intro state startIndex
    exact ⟨rfl, fun k hk => absurd hk (by simp)⟩
  | cons b rest ih =>
    intro state startIndex
    have hunfold : executeBatches svm state simulation startIndex (b :: rest)
        = ((executeBatch svm state simulation startIndex b).1 ::
            (executeBatches svm (executeBatch svm state simulation startIndex b).2 simulation
              (startIndex + 1) rest).1,
           (executeBatches svm (executeBatch svm state simulation startIndex b).2 simulation
              (startIndex + 1) rest).2) := rfl
    rw [hunfold]
    constructor
    · simp [(ih (executeBatch svm state simulation startIndex b).2 (startIndex + 1)).1]
    · intro k hk
      cases k with
      | zero =>
        simp only [List.getD_cons_zero]
        have hs := executeBatch_shape svm state simulation startIndex b
        refine ⟨?_, hs.2⟩
        rw [hs.1]
        omega
      | succ k' =>
        have hk' : k' < rest.length := by simpa using hk
        have hrec := (ih (executeBatch svm state simulation startIndex b).2 (startIndex + 1)).2
          k' hk'
        simp only [List.getD_cons_succ]
        refine ⟨?_, hrec.2⟩
        rw [hrec.1]
        omega

/-- C2: `runSimulation` returns exactly one `BatchResult` per declared
batch, in order with result `k` carrying index `k`; every failed result
carries an error description and an empty mutation list, and a failure
never shortens the result list (later batches still execute and report). -/
theorem runSimulation_batch_results {σ : Type} (svm : Svm σ) (state : σ)
    (fetched : List (Address × EncodedAccount)) (simulation : Simulation) :
    (runSimulation svm state fetched simulation).1.batchResults.length
        = simulation.batches.length
    ∧ ∀ k, k < simulation.batches.length →
        ((runSimulation svm state fetched simulation).1.batchResults.getD k
            ⟨0, true, none, []⟩).index = k
        ∧ (((runSimulation svm state fetched simulation).1.batchResults.getD k
              ⟨0, true, none, []⟩).success = false →
            ((runSimulation svm state fetched simulation).1.batchResults.getD k
              ⟨0, true, none, []⟩).error.isSome
            ∧ ((runSimulation svm state fetched simulation).1.batchResults.getD k
                ⟨0, true, none, []⟩).mutations = []) := by
  have h := executeBatches_spec svm simulation simulation.batches
    (setClockTimestamp svm (applyAccountOverrides svm (loadAccounts svm state fetched)
      simulation) simulation) 0
  refine ⟨h.1, fun k hk => ?_⟩
  have h2 := h.2 k hk
  rw [Nat.zero_add] at h2
  exact h2

/-- Witness for C2: under `exampleSvm` from state 0, `exampleSimulation`'s
two declared batches yield two results; result 0 (whose submission fails)
is checked via the failure clause. -/
theorem runSimulation_batch_results_witness :
    (runSimulation exampleSvm 0 [] exampleSimulation).1.batchResults.length
        = exampleSimulation.batches.length
    ∧ ((runSimulation exampleSvm 0 [] exampleSimulation).1.batchResults.getD 0
        ⟨0, true, none, []⟩).index = 0
    ∧ (((runSimulation exampleSvm 0 [] exampleSimulation).1.batchResults.getD 0
          ⟨0, true, none, []⟩).success = false →
        ((runSimulation exampleSvm 0 [] exampleSimulation).1.batchResults.getD 0
          ⟨0, true, none, []⟩).error.isSome
        ∧ ((runSimulation exampleSvm 0 [] exampleSimulation).1.batchResults.getD 0
            ⟨0, true, none, []⟩).mutations = []) :=
  ⟨(runSimulation_batch_results exampleSvm 0 [] exampleSimulation).1,
   ((runSimulation_batch_results exampleSvm 0 [] exampleSimulation).2 0 (by decide)).1,
   ((runSimulation_batch_results exampleSvm 0 [] exampleSimulation).2 0 (by decide)).2⟩

/-! ## Lemmas about the mutation tracker -/

theorem mutationCond_iff (x : Address) (b af : Option Account) :
    ((computeMutation x b af).existedBefore ≠ (computeMutation x b af).existedAfter
      ∨ (computeMutation x b af).ownerBefore ≠ (computeMutation x b af).ownerAfter
      ∨ (computeMutation x b af).lamportsBefore ≠ (computeMutation x b af).lamportsAfter
      ∨ (computeMutation x b af).dataChanged = true)
    ↔ (b.isSome ≠ af.isSome ∨ b.map (·.owner) ≠ af.map (·.owner)
        ∨ b.map (·.lamports) ≠ af.map (·.lamports) ∨ dataDiffers b af) := by
  cases b <;> cases af <;> simp [computeMutation, dataDiffers, arraysEqual]

/-- C3: `computeMutations` emits an entry for a tracked address exactly when
existence, owner, lamports, or data differ between the snapshots; a
bit-for-bit identical account produces no entry; an account created with
zero-length data still has `dataChanged = true`. -/
theorem computeMutations_emits_iff (tracked : List Address)
    (before after : Address → Option Account) (a : Address) (ha : a ∈ tracked) :
    ((∃ m ∈ computeMutations tracked before after, m.pubkey = a) ↔
      ((before a).isSome ≠ (after a).isSome
        ∨ (before a).map (·.owner) ≠ (after a).map (·.owner)
        ∨ (before a).map (·.lamports) ≠ (after a).map (·.lamports)
        ∨ dataDiffers (before a) (after a)))
    ∧ (before a = after a → ¬ ∃ m ∈ computeMutations tracked before after, m.pubkey = a)
    ∧ (∀ acc : Account, (computeMutation a none (some acc)).dataChanged = true) := by
  have hiff : (∃ m ∈ computeMutations tracked before after, m.pubkey = a) ↔
      ((before a).isSome ≠ (after a).isSome
        ∨ (before a).map (·.owner) ≠ (after a).map (·.owner)
        ∨ (before a).map (·.lamports) ≠ (after a).map (·.lamports)
        ∨ dataDiffers (before a) (after a)) := by
    constructor
    · rintro ⟨m, hm, hpk⟩
      simp only [computeMutations, List.mem_filterMap] at hm
      obtain ⟨x, hx, hfx⟩ := hm
      split_ifs at hfx with hc
      · have hmx : computeMutation x (before x) (after x) = m := Option.some.inj hfx
        have hpx : (computeMutation x (before x) (after x)).pubkey = x := rfl
        have hxa : x = a := by rw [← hpk, ← hmx, hpx]
        subst hxa
        exact (mutationCond_iff x (before x) (after x)).mp (by simpa using hc)
    · intro hcond
      refine ⟨computeMutation a (before a) (after a), ?_, rfl⟩
      simp only [computeMutations, List.mem_filterMap]
      refine ⟨a, ha, ?_⟩
      rw [if_pos]
      exact (mutationCond_iff a (before a) (after a)).mpr hcond
  refine ⟨hiff, ?_, fun acc => rfl⟩
  intro heq hex
  have hd := hiff.mp hex
  rw [heq] at hd
  rcases hd with h | h | h | h
  · exact h rfl
  · exact h rfl
  · exact h rfl
  · cases haf : after a with
    | none => rw [haf] at h; simp [dataDiffers] at h
    | some acc => rw [haf] at h; simp [dataDiffers] at h

/-- Witness for C3: address `[1]` is created (from nothing) with zero-length
data; the emission criterion and `dataChanged` are checked concretely. -/
theorem computeMutations_emits_iff_witness :
    ((∃ m ∈ computeMutations [[1]] exampleBefore exampleAfter, m.pubkey = [1]) ↔
      ((exampleBefore [1]).isSome ≠ (exampleAfter [1]).isSome
        ∨ (exampleBefore [1]).map (·.owner) ≠ (exampleAfter [1]).map (·.owner)
        ∨ (exampleBefore [1]).map (·.lamports) ≠ (exampleAfter [1]).map (·.lamports)
        ∨ dataDiffers (exampleBefore [1]) (exampleAfter [1])))
    ∧ (computeMutation [1] none (some exampleAccount)).dataChanged = true := by
  have h := computeMutations_emits_iff [[1]] exampleBefore exampleAfter [1] (by simp)
  exact ⟨h.1, h.2.2 exampleAccount⟩

/-! ## Lemmas about the proposal parser -/

/-- C6: `validateProposal` accepts exactly the proposals whose multisig
identifier decodes to 32 bytes, whose `postOpCount` exceeds `preOpCount`,
and whose operation count equals their difference; an accepted proposal is
parsed into the in-memory form field by field.  (Validation happens in
`loadProposal`, before any simulation object is even constructed.) -/
theorem validateProposal_spec (json : ProposalJson) :
    ((∃ p, validateProposal json = .ok p) ↔
      ((∃ bytes, parseHex json.multisigId = .ok bytes ∧ bytes.length = 32)
        ∧ json.rootMetadata.preOpCount < json.rootMetadata.postOpCount
        ∧ (json.instructions.length : Int) =
            json.rootMetadata.postOpCount - json.rootMetadata.preOpCount))
    ∧ ∀ p, validateProposal json = .ok p →
        p.validUntil = json.validUntil
        ∧ p.rootMetadata = ⟨json.rootMetadata.chainId, json.rootMetadata.multisig,
            json.rootMetadata.preOpCount, json.rootMetadata.postOpCount,
            json.rootMetadata.overridePreviousRoot⟩
        ∧ p.instructions = json.instructions.map (fun ix =>
            ProposalInstruction.mk ix.programId ix.data
              (ix.accounts.map fun acc => ⟨acc.pubkey, acc.isSigner, acc.isWritable⟩))
        ∧ parseHex json.multisigId = .ok p.multisigId ∧ p.multisigId.length = 32 := by
  unfold validateProposal
  cases hph : parseHex json.multisigId with
  | error e =>
    constructor
    · simp
    · intro p hp
      simp at hp
  | ok bytes =>
    dsimp only
    split_ifs with h32 hpp hcnt
    · constructor
      · constructor
        · rintro ⟨p, hp⟩
          simp at hp
        · rintro ⟨⟨bytes', hb', hl'⟩, _, _⟩
          rw [Except.ok.injEq] at hb'
          subst hb'
          exact (h32 hl').elim
      · intro p hp
        simp at hp
    · constructor
      · constructor
        · rintro ⟨p, hp⟩
          simp at hp
        · rintro ⟨_, hlt, _⟩
          exact absurd hlt (by omega)
      · intro p hp
        simp at hp
    · constructor
      · constructor
        · rintro ⟨p, hp⟩
          simp at hp
        · rintro ⟨_, _, hc⟩
          exact (hcnt hc).elim
      · intro p hp
        simp at hp
    · constructor
      · constructor
        · intro _
          exact ⟨⟨bytes, rfl, by omega⟩, by omega, by omega⟩
        · intro _
          exact ⟨_, rfl⟩
      · intro p hp
        rw [Except.ok.injEq] at hp
        subst hp
        refine ⟨rfl, rfl, rfl, rfl, ?_⟩
        show bytes.length = 32
        omega

set_option maxRecDepth 4000 in
/-- Witness for C6: the concrete well-formed `exampleJson` is accepted. -/
theorem validateProposal_spec_witness :
    ∃ p, validateProposal exampleJson = .ok p :=
  (validateProposal_spec exampleJson).1.mpr
    ⟨⟨List.replicate 32 0, by rfl, by decide⟩, by decide, by decide⟩

/-! ## Lemmas about the byte layout of the metadata leaf -/

theorem sumLen_foldl (parts : List Bytes) : ∀ n : Nat,
    parts.foldl (fun sum part => sum + part.length) n = n + (parts.map List.length).sum := by
  induction parts with
  | nil => intro n; simp
  | cons p rest ih =>
    intro n
    simp only [List.foldl_cons, List.map_cons, List.sum_cons]
    rw [ih]
    omega

theorem concatParts_go (parts : List Bytes) : ∀ pre : Bytes,
    (parts.foldl (fun acc part => (setBytes acc.1 acc.2 part, acc.2 + part.length))
      (pre ++ List.replicate ((parts.map List.length).sum) 0, pre.length)).1
      = pre ++ parts.flatten := by
  induction parts with
  | nil => intro pre; simp
  | cons p rest ih =>
    intro pre
    simp only [List.foldl_cons, List.map_cons, List.sum_cons, List.flatten_cons]
    have hstep : setBytes (pre ++ List.replicate (p.length + (rest.map List.length).sum) 0)
        pre.length p = (pre ++ p) ++ List.replicate ((rest.map List.length).sum) 0 := by
      unfold setBytes
      rw [List.replicate_add]
      have h1 : (pre ++ (List.replicate p.length 0 ++
          List.replicate ((rest.map List.length).sum) 0)).take pre.length = pre :=
        List.take_left pre _
      have h2 : (pre ++ (List.replicate p.length 0 ++
          List.replicate ((rest.map List.length).sum) 0)).drop (pre.length + p.length)
          = List.replicate ((rest.map List.length).sum) 0 := by
        rw [show pre ++ (List.replicate p.length 0 ++
            List.replicate ((rest.map List.length).sum) 0)
            = (pre ++ List.replicate p.length 0) ++
              List.replicate ((rest.map List.length).sum) 0 from by
          rw [List.append_assoc]]
        rw [show pre.length + p.length = (pre ++ List.replicate p.length 0).length from by simp]
        exact List.drop_left _ _
      rw [h1, h2]
    rw [hstep]
    have hoff : pre.length + p.length = (pre ++ p).length := by simp
    rw [hoff, ih (pre ++ p)]
    rw [List.append_assoc]

theorem concatParts_eq_flatten (parts : List Bytes) : concatParts parts = parts.flatten := by
  unfold concatParts
  rw [sumLen_foldl parts 0]
  simpa using concatParts_go parts []

theorem padU64To32Bytes_eq (value : Int) :
    padU64To32Bytes value = List.replicate 24 0 ++ leBytes8 value := by
  unfold padU64To32Bytes setBytes
  have h8 : (leBytes8 value).length = 8 := by simp [leBytes8]
  simp [List.take_replicate, List.drop_replicate, h8]

theorem padBoolTo32Bytes_eq (value : Bool) :
    padBoolTo32Bytes value = List.replicate 31 0 ++ [if value then 1 else 0] := by
  unfold padBoolTo32Bytes setBytes
  simp [List.take_replicate, List.drop_replicate]

/-- C7: `hashMetadataLeaf` is the 32-byte keccak-256 hash of the
concatenation, in order, of the metadata domain separator (itself the
hash of the constant ASCII tag), the chain id, the multisig address, the
pre- and post-operation counts, and the override flag — each numeric
value written little-endian into the last 8 bytes of a zeroed 32-byte
buffer, the flag as a 1 in the last byte. -/
theorem hashMetadataLeaf_layout (p : Proposal) :
    hashMetadataLeaf p = keccak256
      (DOMAIN_SEPARATOR_METADATA
        ++ (List.replicate 24 0 ++ leBytes8 p.rootMetadata.chainId)
        ++ p.rootMetadata.multisig
        ++ (List.replicate 24 0 ++ leBytes8 p.rootMetadata.preOpCount)
        ++ (List.replicate 24 0 ++ leBytes8 p.rootMetadata.postOpCount)
        ++ (List.replicate 31 0 ++ [if p.rootMetadata.overridePreviousRoot then 1 else 0]))
    ∧ DOMAIN_SEPARATOR_METADATA =
        keccak256 (asciiBytes "MANY_CHAIN_MULTI_SIG_DOMAIN_SEPARATOR_METADATA_SOLANA")
    ∧ (hashMetadataLeaf p).length = 32
    ∧ DOMAIN_SEPARATOR_METADATA.length = 32 := by
  refine ⟨?_, rfl, ?_, ?_⟩
  · unfold hashMetadataLeaf
    dsimp only
    rw [concatParts_eq_flatten]
    rw [padU64To32Bytes_eq, padU64To32Bytes_eq, padU64To32Bytes_eq, padBoolTo32Bytes_eq]
    simp [List.append_assoc]
  · simp [hashMetadataLeaf, keccak256]
  · simp [DOMAIN_SEPARATOR_METADATA, keccak256]

/-! ## The MCM simulation clock -/

/-- C10: the simulation built by `createMcmSimulation` always reports
`validUntil - 3600` as its clock timestamp, so `runSimulation`'s clock
step warps the sandbox to exactly one hour before the proposal's expiry —
a time strictly before `validUntil`, at which an expiry check cannot see
an expired proposal. -/
theorem mcm_clock_one_hour_before_expiry {σ : Type} (svm : Svm σ) (state : σ)
    (ext : McmExternals) (config : McmSimulationConfig) :
    (createMcmSimulation ext config).clockTimestamp
        = some (config.proposalWithRoot.proposal.validUntil - 3600)
    ∧ setClockTimestamp svm state (createMcmSimulation ext config)
        = svm.warpToSlot state (config.proposalWithRoot.proposal.validUntil - 3600)
    ∧ config.proposalWithRoot.proposal.validUntil - 3600
        < config.proposalWithRoot.proposal.validUntil := by
  refine ⟨rfl, rfl, by omega⟩
